import Mathlib

/-!
Shallow embedding of the VIKOR ranking core of `vikor_streamlit.py`.

The embedded part is the pure function `vikor(decision_matrix, weights,
criterion_types, v)` (source lines 15-92) together with the caller-side
weight normalization (source lines 503-505).  Real (numpy float) arithmetic
is modelled by exact rational arithmetic on `ℚ`; a decision matrix is a list
of rows, a criterion polarity is the string the source compares against
(`"benefit"`, anything else being treated as cost, exactly as in the code).

The Python function performs no input validation.  It raises an uncaught
runtime exception (IndexError / ValueError from `np.max` on an empty list)
exactly when `m = 0`, `n = 0`, or `weights` / `criterion_types` are shorter
than the number of matrix columns; this is modelled by the `Option` wrapper
`vikor`, whose `none` stands for such a runtime crash, while `vikorRun` is
the computation performed on every input the source completes on.
-/

namespace Vikor

/-- Threshold `1e-9` used by the source for degenerate ranges. -/
abbrev eps : ℚ := 1 / 1000000000

/-- Column `j` of the decision matrix, `decision_matrix[:, j]`. -/
def colVals (matrix : List (List ℚ)) (j : ℕ) : List ℚ :=
  matrix.map (fun row => row.getD j 0)

/-- Number of matrix columns, the `n` of `m, n = decision_matrix.shape`. -/
def ncols (matrix : List (List ℚ)) : ℕ :=
  (matrix.headD []).length

/-- Embedding of `np.max` on a (nonempty) list; `0` on `[]`, where numpy
raises instead (that case is only reachable on inputs `vikor` rejects). -/
def npMax : List ℚ → ℚ
  | [] => 0
  | x :: xs => xs.foldl max x

/-- Embedding of `np.min`, analogous to `npMax`. -/
def npMin : List ℚ → ℚ
  | [] => 0
  | x :: xs => xs.foldl min x

/-- Step 1 of the source: `f_star[j]`, the ideal value of criterion `j`
(maximum of column `j` for a benefit criterion, minimum otherwise). -/
def fStar (matrix : List (List ℚ)) (types : List String) (j : ℕ) : ℚ :=
  if types.getD j "" = "benefit" then npMax (colVals matrix j)
  else npMin (colVals matrix j)

/-- Step 1 of the source: `f_minus[j]`, the anti-ideal value of criterion
`j` (minimum of column `j` for a benefit criterion, maximum otherwise). -/
def fMinus (matrix : List (List ℚ)) (types : List String) (j : ℕ) : ℚ :=
  if types.getD j "" = "benefit" then npMin (colVals matrix j)
  else npMax (colVals matrix j)

/-- The `normalized` value of source lines 51-63: zero when the criterion
range is below `1e-9`, otherwise the signed normalized distance of cell
`(i, j)` from the ideal value of criterion `j`. -/
def normalized (matrix : List (List ℚ)) (types : List String) (i j : ℕ) : ℚ :=
  let denom := |fStar matrix types j - fMinus matrix types j|
  if denom < eps then 0
  else if types.getD j "" = "benefit" then
    (fStar matrix types j - (matrix.getD i []).getD j 0) / denom
  else
    ((matrix.getD i []).getD j 0 - fStar matrix types j) / denom

/-- The `diff_list` of source lines 47-65 for alternative `i`: the weighted
normalized distances over all criteria. -/
def diffList (matrix : List (List ℚ)) (weights : List ℚ) (types : List String)
    (i : ℕ) : List ℚ :=
  (List.range (ncols matrix)).map
    (fun j => weights.getD j 0 * normalized matrix types i j)

/-- The array `S` of source line 67: `S[i] = np.sum(diff_list)`. -/
def Svals (matrix : List (List ℚ)) (weights : List ℚ) (types : List String) :
    List ℚ :=
  (List.range matrix.length).map (fun i => (diffList matrix weights types i).sum)

/-- The array `R` of source line 68: `R[i] = np.max(diff_list)`. -/
def Rvals (matrix : List (List ℚ)) (weights : List ℚ) (types : List String) :
    List ℚ :=
  (List.range matrix.length).map (fun i => npMax (diffList matrix weights types i))

/-- The `s_term` (resp. `r_term`) of source lines 76-77, over an arbitrary
score list `L`: `0` when `|max L - min L| < 1e-9`, otherwise
`(L[i] - min L) / (max L - min L)`. -/
def sTerm (L : List ℚ) (i : ℕ) : ℚ :=
  if |npMax L - npMin L| < eps then 0
  else (L.getD i 0 - npMin L) / (npMax L - npMin L)

/-- The array `Q` of source lines 74-79: `Q[i] = v*s_term + (1-v)*r_term`. -/
def Qvals (matrix : List (List ℚ)) (weights : List ℚ) (types : List String)
    (v : ℚ) : List ℚ :=
  (List.range matrix.length).map
    (fun i => v * sTerm (Svals matrix weights types) i
      + (1 - v) * sTerm (Rvals matrix weights types) i)

/-- One row of the result table of source lines 82-89, with the columns
`Alternative, S, R, Q, Rank` in the order the DataFrame declares them. -/
structure VikorRow where
  alternative : String
  S : ℚ
  R : ℚ
  Q : ℚ
  rank : ℕ
deriving Repr, DecidableEq

/-- The triple returned at source line 92: the ranked table plus the ideal
and anti-ideal vectors. -/
structure VikorResult where
  rows : List VikorRow
  f_star : List ℚ
  f_minus : List ℚ
deriving Repr, DecidableEq

/-- The result rows before sorting, source lines 82-89: alternative `i` is
labelled `"A" ++ toString (i+1)` (the `f"A{i+1}"` of line 83) and its rank
is the pandas `rank(method='min')` value `1 + #(entries of Q strictly
below Q[i])`, computed on the unsorted table. -/
def unsortedRows (matrix : List (List ℚ)) (weights : List ℚ)
    (types : List String) (v : ℚ) : List VikorRow :=
  let S := Svals matrix weights types
  let R := Rvals matrix weights types
  let Q := Qvals matrix weights types v
  (List.range matrix.length).map
    (fun i => ⟨"A" ++ toString (i + 1), S.getD i 0, R.getD i 0, Q.getD i 0,
      1 + Q.countP (fun x => decide (x < Q.getD i 0))⟩)

/-- The computation the source performs when it completes: rank rows, sort
ascending by `Q` (the `sort_values(by='Q')` of source line 90, embedded as
an insertion sort — the source fixes no tie order and no property proved
here depends on one), and return them with `f_star`, `f_minus`. -/
def vikorRun (matrix : List (List ℚ)) (weights : List ℚ)
    (types : List String) (v : ℚ) : VikorResult :=
  ⟨List.insertionSort (fun a b => a.Q ≤ b.Q) (unsortedRows matrix weights types v),
    (List.range (ncols matrix)).map (fun j => fStar matrix types j),
    (List.range (ncols matrix)).map (fun j => fMinus matrix types j)⟩

/-- The `vikor` entry point.  `none` models the uncaught runtime exception
Python raises (IndexError on `weights[j]` / `criterion_types[j]`, or
`np.max` / `np.min` of an empty sequence) when `m = 0`, `n = 0`, or the
weight / polarity lists are shorter than the column count; the source has
no validation and no error type of its own. -/
def vikor (matrix : List (List ℚ)) (weights : List ℚ) (types : List String)
    (v : ℚ) : Option VikorResult :=
  if 1 ≤ matrix.length ∧ 1 ≤ ncols matrix ∧ ncols matrix ≤ weights.length
      ∧ ncols matrix ≤ types.length then
    some (vikorRun matrix weights types v)
  else none

/-- The caller-side weight normalization of source lines 503-505: divide by
the sum only when the sum is positive, otherwise pass the weights through
unchanged. -/
def normalizeWeights (ws : List ℚ) : List ℚ :=
  if 0 < ws.sum then ws.map (fun w => w / ws.sum) else ws

/-- A decision matrix is rectangular: every row has the column count many
entries (numpy guarantees this for a 2-d array). -/
def Rect (matrix : List (List ℚ)) : Prop :=
  ∀ row ∈ matrix, row.length = ncols matrix

/-- The normalized distance of the claims' wording: `d_ij = 0` when
`denom = |ideal[j] - antiIdeal[j]| < 1e-9`, else `(ideal[j]-matrix[i,j])/denom`
for a benefit criterion and `(matrix[i,j]-ideal[j])/denom` for a cost one. -/
def dSpec (matrix : List (List ℚ)) (types : List String) (i j : ℕ) : ℚ :=
  if |fStar matrix types j - fMinus matrix types j| < eps then 0
  else if types.getD j "" = "benefit" then
    (fStar matrix types j - (matrix.getD i []).getD j 0)
      / |fStar matrix types j - fMinus matrix types j|
  else
    ((matrix.getD i []).getD j 0 - fStar matrix types j)
      / |fStar matrix types j - fMinus matrix types j|

/-! Helper lemmas about the `np.max` / `np.min` embeddings and about
indexing lists built over `List.range`. -/

theorem le_foldl_max (l : List ℚ) (a : ℚ) : a ≤ l.foldl max a := by
  induction l generalizing a with
  | nil => exact le_refl a
  | cons x xs ih => exact le_trans (le_max_left a x) (ih (max a x))

theorem mem_le_foldl_max (l : List ℚ) (a : ℚ) :
    ∀ x ∈ l, x ≤ l.foldl max a := by
  induction l generalizing a with
  | nil => intro x hx; cases hx
  | cons y ys ih =>
    intro x hx
    rcases List.mem_cons.mp hx with h | h
    · subst h
      exact le_trans (le_max_right a x) (le_foldl_max ys (max a x))
    · exact ih (max a y) x h

theorem foldl_max_mem (l : List ℚ) (a : ℚ) :
    l.foldl max a = a ∨ l.foldl max a ∈ l := by
  induction l generalizing a with
  | nil => exact Or.inl rfl
  | cons x xs ih =>
    rcases ih (max a x) with h | h
    · rcases max_choice a x with h2 | h2
      · exact Or.inl (by rw [List.foldl_cons, h, h2])
      · exact Or.inr (by rw [List.foldl_cons, h, h2]; exact List.mem_cons_self x xs)
    · exact Or.inr (List.mem_cons_of_mem x h)

theorem foldl_min_le (l : List ℚ) (a : ℚ) : l.foldl min a ≤ a := by
  induction l generalizing a with
  | nil => exact le_refl a
  | cons x xs ih => exact le_trans (ih (min a x)) (min_le_left a x)

theorem foldl_min_le_mem (l : List ℚ) (a : ℚ) :
    ∀ x ∈ l, l.foldl min a ≤ x := by
  induction l generalizing a with
  | nil => intro x hx; cases hx
  | cons y ys ih =>
    intro x hx
    rcases List.mem_cons.mp hx with h | h
    · subst h
      exact le_trans (foldl_min_le ys (min a x)) (min_le_right a x)
    · exact ih (min a y) x h

theorem foldl_min_mem (l : List ℚ) (a : ℚ) :
    l.foldl min a = a ∨ l.foldl min a ∈ l := by
  induction l generalizing a with
  | nil => exact Or.inl rfl
  | cons x xs ih =>
    rcases ih (min a x) with h | h
    · rcases min_choice a x with h2 | h2
      · exact Or.inl (by rw [List.foldl_cons, h, h2])
      · exact Or.inr (by rw [List.foldl_cons, h, h2]; exact List.mem_cons_self x xs)
    · exact Or.inr (List.mem_cons_of_mem x h)

theorem npMax_mem {l : List ℚ} (h : l ≠ []) : npMax l ∈ l := by
  cases l with
  | nil => exact absurd rfl h
  | cons x xs =>
    rcases foldl_max_mem xs x with h2 | h2
    · rw [npMax, h2]; exact List.mem_cons_self x xs
    · exact List.mem_cons_of_mem x h2

theorem le_npMax {l : List ℚ} {x : ℚ} (hx : x ∈ l) : x ≤ npMax l := by
  cases l with
  | nil => cases hx
  | cons y ys =>
    rcases List.mem_cons.mp hx with h | h
    · subst h; exact le_foldl_max ys x
    · exact mem_le_foldl_max ys y x h

theorem npMin_mem {l : List ℚ} (h : l ≠ []) : npMin l ∈ l := by
  cases l with
  | nil => exact absurd rfl h
  | cons x xs =>
    rcases foldl_min_mem xs x with h2 | h2
    · rw [npMin, h2]; exact List.mem_cons_self x xs
    · exact List.mem_cons_of_mem x h2

theorem npMin_le {l : List ℚ} {x : ℚ} (hx : x ∈ l) : npMin l ≤ x := by
  cases l with
  | nil => cases hx
  | cons y ys =>
    rcases List.mem_cons.mp hx with h | h
    · subst h; exact foldl_min_le ys x
    · exact foldl_min_le_mem ys y x h

theorem npMax_const {l : List ℚ} {c : ℚ} (h : l ≠ []) (hc : ∀ x ∈ l, x = c) :
    npMax l = c :=
  hc _ (npMax_mem h)

theorem npMin_const {l : List ℚ} {c : ℚ} (h : l ≠ []) (hc : ∀ x ∈ l, x = c) :
    npMin l = c :=
  hc _ (npMin_mem h)

theorem getD_map_range {α : Type} (f : ℕ → α) (d : α) {i m : ℕ} (hi : i < m) :
    ((List.range m).map f).getD i d = f i := by
  rw [List.getD_eq_getElem _ _ (by simpa using hi)]
  simp

theorem map_getD_range (l : List ℚ) :
    (List.range l.length).map (fun i => l.getD i 0) = l := by
  apply List.ext_getElem
  · simp
  · intro i h1 h2
    simp [List.getD_eq_getElem _ _ h2, List.getElem?_eq_getElem h2]

theorem sum_map_range (f : ℕ → ℚ) (n : ℕ) :
    ((List.range n).map f).sum = ∑ j ∈ Finset.range n, f j := by
  induction n with
  | zero => simp
  | succ k ih => rw [List.range_succ, List.map_append, List.sum_append,
      Finset.sum_range_succ, ih]; simp

theorem diffList_take (matrix : List (List ℚ)) (weights : List ℚ)
    (types : List String) (i : ℕ) :
    diffList matrix (weights.take (ncols matrix)) types i =
      diffList matrix weights types i := by
  unfold diffList
  apply List.map_congr_left
  intro j hj
  have hj2 : j < ncols matrix := List.mem_range.mp hj
  rw [List.getD_eq_getElem?_getD, List.getD_eq_getElem?_getD,
    List.getElem?_take, if_pos hj2]

theorem vikorRun_take (matrix : List (List ℚ)) (weights : List ℚ)
    (types : List String) (v : ℚ) :
    vikorRun matrix (weights.take (ncols matrix)) types v =
      vikorRun matrix weights types v := by
  unfold vikorRun unsortedRows Qvals Svals Rvals
  simp only [diffList_take]

/-- C1 counterexample: an input whose weights vector has length 3 while the
matrix has 2 columns is not rejected: `vikor` returns a fully computed
ranked result (identical to the one for the first two weights), so no
`InvalidInputError` / `ShapeMismatch` is produced and computation is
performed.  The source contains no validation code at all. -/
theorem C1_counterexample :
    vikor [[1, 2], [3, 4]] [1/2, 1/2, 1/2] ["benefit", "benefit"] (1/2) =
      some ⟨[⟨"A2", 0, 0, 0, 1⟩, ⟨"A1", 1, 1/2, 1, 2⟩], [3, 4], [1, 2]⟩ := by
  norm_num [vikor, vikorRun, unsortedRows, Qvals, Svals, Rvals, diffList,
    normalized, fStar, fMinus, colVals, ncols, npMax, npMin, sTerm, eps, abs_lt,
    List.range_succ, List.insertionSort, List.orderedInsert, List.countP_cons]
  exact ⟨rfl, rfl⟩

/-- C1 (amended): `vikor` performs no input validation and has no error
type.  With at least `m = 1` row, `n = 1` column and enough polarity
entries, a weights vector at least as long as the column count — however
much longer — yields a fully computed result that ignores the extra
weights, while a weights vector shorter than the column count makes the
call die with an uncaught IndexError mid-computation (the `none` of the
embedding), not with an eager `InvalidInputError{ShapeMismatch}`. -/
theorem C1_no_validation (matrix : List (List ℚ)) (weights : List ℚ)
    (types : List String) (v : ℚ) (hm : 1 ≤ matrix.length)
    (hn : 1 ≤ ncols matrix) (ht : ncols matrix ≤ types.length) :
    vikor matrix weights types v =
      if ncols matrix ≤ weights.length then
        some (vikorRun matrix (weights.take (ncols matrix)) types v)
      else none := by
  by_cases hw : ncols matrix ≤ weights.length
  · rw [if_pos hw]
    unfold vikor
    rw [if_pos ⟨hm, hn, hw, ht⟩, vikorRun_take]
  · rw [if_neg hw]
    unfold vikor
    rw [if_neg]
    intro hcontra
    exact hw hcontra.2.2.1

/-- C1 witness: the amended statement applied to the concrete mismatched
input of the counterexample (3 weights, 2 columns). -/
theorem C1_witness :
    vikor [[1, 2], [3, 4]] [1/2, 1/2, 1/2] ["benefit", "benefit"] (1/2) =
      if ncols [[(1:ℚ), 2], [3, 4]] ≤ ([1/2, 1/2, 1/2] : List ℚ).length then
        some (vikorRun [[1, 2], [3, 4]]
          (([1/2, 1/2, 1/2] : List ℚ).take (ncols [[(1:ℚ), 2], [3, 4]]))
          ["benefit", "benefit"] (1/2))
      else none :=
  C1_no_validation [[1, 2], [3, 4]] [1/2, 1/2, 1/2] ["benefit", "benefit"]
    (1/2) (by norm_num) (by norm_num [ncols]) (by norm_num [ncols])

/-- C6: Scenario A of the spec.  On matrix `[[1,2],[3,4]]` with weights
`[1/2, 1/2]`, both criteria Benefit and `v = 1/2`, the ideal vector is
`[3, 4]`, the anti-ideal `[1, 2]`; alternative A1 gets `S = 1`, `R = 1/2`
and A2 gets `S = 0`, `R = 0`; A2 is ranked first with `Q = 0` and A1
second with `Q = 1`. -/
theorem C6_scenario_A :
    vikor [[1, 2], [3, 4]] [1/2, 1/2] ["benefit", "benefit"] (1/2) =
      some ⟨[⟨"A2", 0, 0, 0, 1⟩, ⟨"A1", 1, 1/2, 1, 2⟩], [3, 4], [1, 2]⟩ := by
  norm_num [vikor, vikorRun, unsortedRows, Qvals, Svals, Rvals, diffList,
    normalized, fStar, fMinus, colVals, ncols, npMax, npMin, sTerm, eps, abs_lt,
    List.range_succ, List.insertionSort, List.orderedInsert, List.countP_cons]
  exact ⟨rfl, rfl⟩

theorem colVals_ne_nil {matrix : List (List ℚ)} (hm : 1 ≤ matrix.length)
    (j : ℕ) : colVals matrix j ≠ [] := by
  unfold colVals
  simp only [ne_eq, List.map_eq_nil_iff]
  exact List.ne_nil_of_length_pos hm

theorem f_star_getD (matrix : List (List ℚ)) (weights : List ℚ)
    (types : List String) (v : ℚ) {j : ℕ} (hj : j < ncols matrix) :
    (vikorRun matrix weights types v).f_star.getD j 0 = fStar matrix types j :=
  getD_map_range _ _ hj

theorem f_minus_getD (matrix : List (List ℚ)) (weights : List ℚ)
    (types : List String) (v : ℚ) {j : ℕ} (hj : j < ncols matrix) :
    (vikorRun matrix weights types v).f_minus.getD j 0 = fMinus matrix types j :=
  getD_map_range _ _ hj

/-- C2: for every valid input and criterion index `j`, a Benefit criterion's
ideal value `f_star[j]` is the maximum of matrix column `j` (a member of the
column that dominates every entry) and its anti-ideal `f_minus[j]` is the
column minimum; for a Cost criterion the ideal is the column minimum and the
anti-ideal the column maximum. -/
theorem C2_reference_points (matrix : List (List ℚ)) (weights : List ℚ)
    (types : List String) (v : ℚ) (j : ℕ) (hm : 1 ≤ matrix.length)
    (hj : j < ncols matrix) :
    (types.getD j "" = "benefit" →
      ((vikorRun matrix weights types v).f_star.getD j 0 ∈ colVals matrix j ∧
        ∀ x ∈ colVals matrix j,
          x ≤ (vikorRun matrix weights types v).f_star.getD j 0) ∧
      ((vikorRun matrix weights types v).f_minus.getD j 0 ∈ colVals matrix j ∧
        ∀ x ∈ colVals matrix j,
          (vikorRun matrix weights types v).f_minus.getD j 0 ≤ x)) ∧
    (types.getD j "" = "cost" →
      ((vikorRun matrix weights types v).f_star.getD j 0 ∈ colVals matrix j ∧
        ∀ x ∈ colVals matrix j,
          (vikorRun matrix weights types v).f_star.getD j 0 ≤ x) ∧
      ((vikorRun matrix weights types v).f_minus.getD j 0 ∈ colVals matrix j ∧
        ∀ x ∈ colVals matrix j,
          x ≤ (vikorRun matrix weights types v).f_minus.getD j 0)) := by
  have hcol := colVals_ne_nil hm j
  rw [f_star_getD matrix weights types v hj, f_minus_getD matrix weights types v hj]
  constructor
  · intro hb
    rw [fStar, if_pos hb, fMinus, if_pos hb]
    exact ⟨⟨npMax_mem hcol, fun x hx => le_npMax hx⟩,
      ⟨npMin_mem hcol, fun x hx => npMin_le hx⟩⟩
  · intro hc
    have hb : ¬ types.getD j "" = "benefit" := by rw [hc]; decide
    rw [fStar, if_neg hb, fMinus, if_neg hb]
    exact ⟨⟨npMin_mem hcol, fun x hx => npMin_le hx⟩,
      ⟨npMax_mem hcol, fun x hx => le_npMax hx⟩⟩

/-- C2 witness: the reference-point characterization applied to the
concrete input `[[1,2],[3,4]]` with polarities `[benefit, cost]` at
criterion 0. -/
theorem C2_witness :
    ((["benefit", "cost"].getD 0 "" = "benefit" →
      ((vikorRun [[1, 2], [3, 4]] [1, 1] ["benefit", "cost"] (1/2)).f_star.getD 0 0
          ∈ colVals [[1, 2], [3, 4]] 0 ∧
        ∀ x ∈ colVals [[1, 2], [3, 4]] 0,
          x ≤ (vikorRun [[1, 2], [3, 4]] [1, 1] ["benefit", "cost"] (1/2)).f_star.getD 0 0) ∧
      ((vikorRun [[1, 2], [3, 4]] [1, 1] ["benefit", "cost"] (1/2)).f_minus.getD 0 0
          ∈ colVals [[1, 2], [3, 4]] 0 ∧
        ∀ x ∈ colVals [[1, 2], [3, 4]] 0,
          (vikorRun [[1, 2], [3, 4]] [1, 1] ["benefit", "cost"] (1/2)).f_minus.getD 0 0 ≤ x)) ∧
    (["benefit", "cost"].getD 0 "" = "cost" →
      ((vikorRun [[1, 2], [3, 4]] [1, 1] ["benefit", "cost"] (1/2)).f_star.getD 0 0
          ∈ colVals [[1, 2], [3, 4]] 0 ∧
        ∀ x ∈ colVals [[1, 2], [3, 4]] 0,
          (vikorRun [[1, 2], [3, 4]] [1, 1] ["benefit", "cost"] (1/2)).f_star.getD 0 0 ≤ x) ∧
      ((vikorRun [[1, 2], [3, 4]] [1, 1] ["benefit", "cost"] (1/2)).f_minus.getD 0 0
          ∈ colVals [[1, 2], [3, 4]] 0 ∧
        ∀ x ∈ colVals [[1, 2], [3, 4]] 0,
          x ≤ (vikorRun [[1, 2], [3, 4]] [1, 1] ["benefit", "cost"] (1/2)).f_minus.getD 0 0))) :=
  C2_reference_points [[1, 2], [3, 4]] [1, 1] ["benefit", "cost"] (1/2) 0
    (by norm_num) (by norm_num [ncols])

theorem dSpec_eq_normalized (matrix : List (List ℚ)) (types : List String)
    (i j : ℕ) : dSpec matrix types i j = normalized matrix types i j := rfl

theorem Svals_getD {matrix : List (List ℚ)} (weights : List ℚ)
    (types : List String) {i : ℕ} (hi : i < matrix.length) :
    (Svals matrix weights types).getD i 0 = (diffList matrix weights types i).sum :=
  getD_map_range _ _ hi

theorem Rvals_getD {matrix : List (List ℚ)} (weights : List ℚ)
    (types : List String) {i : ℕ} (hi : i < matrix.length) :
    (Rvals matrix weights types).getD i 0 = npMax (diffList matrix weights types i) :=
  getD_map_range _ _ hi

theorem Qvals_getD {matrix : List (List ℚ)} (weights : List ℚ)
    (types : List String) (v : ℚ) {i : ℕ} (hi : i < matrix.length) :
    (Qvals matrix weights types v).getD i 0 =
      v * sTerm (Svals matrix weights types) i
        + (1 - v) * sTerm (Rvals matrix weights types) i :=
  getD_map_range _ _ hi

theorem diffList_ne_nil {matrix : List (List ℚ)} (weights : List ℚ)
    (types : List String) (i : ℕ) (hn : 1 ≤ ncols matrix) :
    diffList matrix weights types i ≠ [] := by
  unfold diffList
  simp only [ne_eq, List.map_eq_nil_iff, List.range_eq_nil]
  omega

theorem mem_diffList {matrix : List (List ℚ)} {weights : List ℚ}
    {types : List String} {i : ℕ} {x : ℚ} :
    x ∈ diffList matrix weights types i ↔
      ∃ j < ncols matrix, x = weights.getD j 0 * normalized matrix types i j := by
  unfold diffList
  simp only [List.mem_map, List.mem_range]
  constructor
  · rintro ⟨j, hj, hx⟩; exact ⟨j, hj, hx.symm⟩
  · rintro ⟨j, hj, hx⟩; exact ⟨j, hj, hx.symm⟩

theorem Svals_ne_nil {matrix : List (List ℚ)} (weights : List ℚ)
    (types : List String) (hm : 1 ≤ matrix.length) :
    Svals matrix weights types ≠ [] := by
  unfold Svals
  simp only [ne_eq, List.map_eq_nil_iff, List.range_eq_nil]
  omega

theorem Rvals_ne_nil {matrix : List (List ℚ)} (weights : List ℚ)
    (types : List String) (hm : 1 ≤ matrix.length) :
    Rvals matrix weights types ≠ [] := by
  unfold Rvals
  simp only [ne_eq, List.map_eq_nil_iff, List.range_eq_nil]
  omega

/-- C3: for every valid input and alternative `i`, `S[i]` is the sum over
the criteria of `weight[j] * d_ij` and `R[i]` is their maximum (a value
attained at some criterion and dominating all of them), where `d_ij` is the
signed normalized distance `dSpec` (zero below the `1e-9` range
threshold). -/
theorem C3_aggregation (matrix : List (List ℚ)) (weights : List ℚ)
    (types : List String) (i : ℕ) (hi : i < matrix.length)
    (hn : 1 ≤ ncols matrix) :
    (Svals matrix weights types).getD i 0 =
      ∑ j ∈ Finset.range (ncols matrix),
        weights.getD j 0 * dSpec matrix types i j ∧
    (∃ j < ncols matrix, (Rvals matrix weights types).getD i 0 =
      weights.getD j 0 * dSpec matrix types i j) ∧
    ∀ j < ncols matrix, weights.getD j 0 * dSpec matrix types i j ≤
      (Rvals matrix weights types).getD i 0 := by
  simp only [dSpec_eq_normalized]
  refine ⟨?_, ?_, ?_⟩
  · rw [Svals_getD weights types hi]
    unfold diffList
    exact sum_map_range _ _
  · rw [Rvals_getD weights types hi]
    rcases mem_diffList.mp (npMax_mem (diffList_ne_nil weights types i hn)) with
      ⟨j, hj, hx⟩
    exact ⟨j, hj, hx⟩
  · intro j hj
    rw [Rvals_getD weights types hi]
    exact le_npMax (mem_diffList.mpr ⟨j, hj, rfl⟩)

/-- C3 witness: the S/R aggregation applied to the concrete input
`[[1,2],[3,4]]`, weights `[1,1]`, both criteria Benefit, alternative 0. -/
theorem C3_witness :
    (Svals [[1, 2], [3, 4]] [1, 1] ["benefit", "benefit"]).getD 0 0 =
      ∑ j ∈ Finset.range (ncols [[(1:ℚ), 2], [3, 4]]),
        ([1, 1] : List ℚ).getD j 0 * dSpec [[1, 2], [3, 4]] ["benefit", "benefit"] 0 j ∧
    (∃ j < ncols [[(1:ℚ), 2], [3, 4]],
      (Rvals [[1, 2], [3, 4]] [1, 1] ["benefit", "benefit"]).getD 0 0 =
        ([1, 1] : List ℚ).getD j 0 * dSpec [[1, 2], [3, 4]] ["benefit", "benefit"] 0 j) ∧
    ∀ j < ncols [[(1:ℚ), 2], [3, 4]],
      ([1, 1] : List ℚ).getD j 0 * dSpec [[1, 2], [3, 4]] ["benefit", "benefit"] 0 j ≤
        (Rvals [[1, 2], [3, 4]] [1, 1] ["benefit", "benefit"]).getD 0 0 :=
  C3_aggregation [[1, 2], [3, 4]] [1, 1] ["benefit", "benefit"] 0
    (by norm_num) (by norm_num [ncols])

/-- C4: for every valid input and alternative `i`,
`Q[i] = v*sTerm + (1-v)*rTerm`, where `S*`, `S-` (resp. `R*`, `R-`) are the
minimum and maximum of the `S` (resp. `R`) array and each term is zero when
the corresponding spread is below `1e-9` and the normalized offset
`(S[i]-S*)/(S- - S*)` otherwise. -/
theorem C4_compromise_index (matrix : List (List ℚ)) (weights : List ℚ)
    (types : List String) (v : ℚ) (i : ℕ) (hi : i < matrix.length) :
    ∃ Sstar Ssub Rstar Rsub : ℚ,
      (Sstar ∈ Svals matrix weights types ∧
        ∀ x ∈ Svals matrix weights types, Sstar ≤ x) ∧
      (Ssub ∈ Svals matrix weights types ∧
        ∀ x ∈ Svals matrix weights types, x ≤ Ssub) ∧
      (Rstar ∈ Rvals matrix weights types ∧
        ∀ x ∈ Rvals matrix weights types, Rstar ≤ x) ∧
      (Rsub ∈ Rvals matrix weights types ∧
        ∀ x ∈ Rvals matrix weights types, x ≤ Rsub) ∧
      (Qvals matrix weights types v).getD i 0 =
        v * (if |Ssub - Sstar| < eps then 0
          else ((Svals matrix weights types).getD i 0 - Sstar) / (Ssub - Sstar)) +
        (1 - v) * (if |Rsub - Rstar| < eps then 0
          else ((Rvals matrix weights types).getD i 0 - Rstar) / (Rsub - Rstar)) := by
  have hm : 1 ≤ matrix.length := by omega
  refine ⟨npMin _, npMax _, npMin _, npMax _,
    ⟨npMin_mem (Svals_ne_nil weights types hm), fun x hx => npMin_le hx⟩,
    ⟨npMax_mem (Svals_ne_nil weights types hm), fun x hx => le_npMax hx⟩,
    ⟨npMin_mem (Rvals_ne_nil weights types hm), fun x hx => npMin_le hx⟩,
    ⟨npMax_mem (Rvals_ne_nil weights types hm), fun x hx => le_npMax hx⟩, ?_⟩
  rw [Qvals_getD weights types v hi]
  rfl

/-- C4 witness: the compromise-index formula applied to the concrete input
`[[1,2],[3,4]]`, weights `[1,1]`, both criteria Benefit, `v = 1/2`,
alternative 0. -/
theorem C4_witness :
    ∃ Sstar Ssub Rstar Rsub : ℚ,
      (Sstar ∈ Svals [[1, 2], [3, 4]] [1, 1] ["benefit", "benefit"] ∧
        ∀ x ∈ Svals [[1, 2], [3, 4]] [1, 1] ["benefit", "benefit"], Sstar ≤ x) ∧
      (Ssub ∈ Svals [[1, 2], [3, 4]] [1, 1] ["benefit", "benefit"] ∧
        ∀ x ∈ Svals [[1, 2], [3, 4]] [1, 1] ["benefit", "benefit"], x ≤ Ssub) ∧
      (Rstar ∈ Rvals [[1, 2], [3, 4]] [1, 1] ["benefit", "benefit"] ∧
        ∀ x ∈ Rvals [[1, 2], [3, 4]] [1, 1] ["benefit", "benefit"], Rstar ≤ x) ∧
      (Rsub ∈ Rvals [[1, 2], [3, 4]] [1, 1] ["benefit", "benefit"] ∧
        ∀ x ∈ Rvals [[1, 2], [3, 4]] [1, 1] ["benefit", "benefit"], x ≤ Rsub) ∧
      (Qvals [[1, 2], [3, 4]] [1, 1] ["benefit", "benefit"] (1/2)).getD 0 0 =
        (1/2) * (if |Ssub - Sstar| < eps then 0
          else ((Svals [[1, 2], [3, 4]] [1, 1] ["benefit", "benefit"]).getD 0 0 - Sstar)
            / (Ssub - Sstar)) +
        (1 - 1/2) * (if |Rsub - Rstar| < eps then 0
          else ((Rvals [[1, 2], [3, 4]] [1, 1] ["benefit", "benefit"]).getD 0 0 - Rstar)
            / (Rsub - Rstar)) :=
  C4_compromise_index [[1, 2], [3, 4]] [1, 1] ["benefit", "benefit"] (1/2) 0
    (by norm_num)

theorem sTerm_bounds (L : List ℚ) (i : ℕ) (hi : i < L.length) :
    0 ≤ sTerm L i ∧ sTerm L i ≤ 1 := by
  have hmem : L.getD i 0 ∈ L := by
    rw [List.getD_eq_getElem _ _ hi]
    exact List.getElem_mem hi
  have h1 : npMin L ≤ L.getD i 0 := npMin_le hmem
  have h2 : L.getD i 0 ≤ npMax L := le_npMax hmem
  unfold sTerm
  by_cases h : |npMax L - npMin L| < eps
  · rw [if_pos h]
    norm_num
  · rw [if_neg h]
    have heps : (0:ℚ) < eps := by norm_num [eps]
    rw [abs_of_nonneg (by linarith)] at h
    have hpos : 0 < npMax L - npMin L := lt_of_lt_of_le heps (le_of_not_lt h)
    constructor
    · exact div_nonneg (by linarith) (le_of_lt hpos)
    · rw [div_le_one hpos]
      linarith

/-- C9: for every valid input with `v ∈ [0,1]`, when the `S` spread and the
`R` spread are both strictly positive, every `Q` value lies in `[0, 1]`. -/
theorem C9_Q_unit_range (matrix : List (List ℚ)) (weights : List ℚ)
    (types : List String) (v : ℚ) (hv0 : 0 ≤ v) (hv1 : v ≤ 1)
    (hS : npMin (Svals matrix weights types) < npMax (Svals matrix weights types))
    (hR : npMin (Rvals matrix weights types) < npMax (Rvals matrix weights types))
    (i : ℕ) (hi : i < matrix.length) :
    0 ≤ (Qvals matrix weights types v).getD i 0 ∧
      (Qvals matrix weights types v).getD i 0 ≤ 1 := by
  have hSlen : i < (Svals matrix weights types).length := by
    unfold Svals
    simpa using hi
  have hRlen : i < (Rvals matrix weights types).length := by
    unfold Rvals
    simpa using hi
  obtain ⟨hs0, hs1⟩ := sTerm_bounds _ i hSlen
  obtain ⟨hr0, hr1⟩ := sTerm_bounds _ i hRlen
  rw [Qvals_getD weights types v hi]
  constructor
  · have ha := mul_nonneg hv0 hs0
    have hb := mul_nonneg (by linarith : (0:ℚ) ≤ 1 - v) hr0
    linarith
  · have ha : v * sTerm (Svals matrix weights types) i ≤ v * 1 :=
      mul_le_mul_of_nonneg_left hs1 hv0
    have hb : (1 - v) * sTerm (Rvals matrix weights types) i ≤ (1 - v) * 1 :=
      mul_le_mul_of_nonneg_left hr1 (by linarith)
    linarith

/-- C9 witness: the unit-range bound applied to Scenario A's input, whose
S spread (0 to 1) and R spread (0 to 1/2) are both strict. -/
theorem C9_witness :
    0 ≤ (Qvals [[1, 2], [3, 4]] [1/2, 1/2] ["benefit", "benefit"] (1/2)).getD 0 0 ∧
      (Qvals [[1, 2], [3, 4]] [1/2, 1/2] ["benefit", "benefit"] (1/2)).getD 0 0 ≤ 1 :=
  C9_Q_unit_range [[1, 2], [3, 4]] [1/2, 1/2] ["benefit", "benefit"] (1/2)
    (by norm_num) (by norm_num)
    (by norm_num [Svals, diffList, normalized, fStar, fMinus, colVals, ncols,
      npMax, npMin, eps, abs_lt, List.range_succ])
    (by norm_num [Rvals, diffList, normalized, fStar, fMinus, colVals, ncols,
      npMax, npMin, eps, abs_lt, List.range_succ])
    0 (by norm_num)

instance : IsTotal VikorRow (fun a b => a.Q ≤ b.Q) :=
  ⟨fun a b => le_total a.Q b.Q⟩

instance : IsTrans VikorRow (fun a b => a.Q ≤ b.Q) :=
  ⟨fun _ _ _ h1 h2 => le_trans h1 h2⟩

theorem Qvals_length (matrix : List (List ℚ)) (weights : List ℚ)
    (types : List String) (v : ℚ) :
    (Qvals matrix weights types v).length = matrix.length := by
  unfold Qvals
  simp

theorem mem_unsortedRows {matrix : List (List ℚ)} {weights : List ℚ}
    {types : List String} {v : ℚ} {row : VikorRow} :
    row ∈ unsortedRows matrix weights types v ↔
      ∃ i < matrix.length, row = ⟨"A" ++ toString (i + 1),
        (Svals matrix weights types).getD i 0,
        (Rvals matrix weights types).getD i 0,
        (Qvals matrix weights types v).getD i 0,
        1 + (Qvals matrix weights types v).countP
          (fun x => decide (x < (Qvals matrix weights types v).getD i 0))⟩ := by
  unfold unsortedRows
  simp only [List.mem_map, List.mem_range]
  constructor
  · rintro ⟨i, hi, h⟩
    exact ⟨i, hi, h.symm⟩
  · rintro ⟨i, hi, h⟩
    exact ⟨i, hi, h.symm⟩

theorem countP_unsortedRows (matrix : List (List ℚ)) (weights : List ℚ)
    (types : List String) (v : ℚ) (q : ℚ) :
    (unsortedRows matrix weights types v).countP (fun x => decide (x.Q < q)) =
      (Qvals matrix weights types v).countP (fun x => decide (x < q)) := by
  unfold unsortedRows
  rw [List.countP_map]
  conv_rhs => rw [← map_getD_range (Qvals matrix weights types v),
    Qvals_length, List.countP_map]
  rfl

/-- C5: the output row list of `vikorRun` is sorted non-decreasingly by
`Q`; every row's rank equals `1 +` the number of rows with strictly smaller
`Q` (pandas `rank(method='min')`, competition ranking); hence rows whose
`Q` values are exactly equal share a rank. -/
theorem C5_sorted_and_ranks (matrix : List (List ℚ)) (weights : List ℚ)
    (types : List String) (v : ℚ) :
    List.Sorted (fun a b : VikorRow => a.Q ≤ b.Q)
      (vikorRun matrix weights types v).rows ∧
    (∀ row ∈ (vikorRun matrix weights types v).rows,
      row.rank = 1 + (vikorRun matrix weights types v).rows.countP
        (fun x => decide (x.Q < row.Q))) ∧
    (∀ r1 ∈ (vikorRun matrix weights types v).rows,
      ∀ r2 ∈ (vikorRun matrix weights types v).rows,
        r1.Q = r2.Q → r1.rank = r2.rank) := by
  have hperm : (vikorRun matrix weights types v).rows.Perm
      (unsortedRows matrix weights types v) :=
    List.perm_insertionSort _ _
  have hrank : ∀ row ∈ (vikorRun matrix weights types v).rows,
      row.rank = 1 + (vikorRun matrix weights types v).rows.countP
        (fun x => decide (x.Q < row.Q)) := by
    intro row hrow
    rcases mem_unsortedRows.mp (hperm.mem_iff.mp hrow) with ⟨i, hi, heq⟩
    rw [hperm.countP_eq, countP_unsortedRows]
    rw [heq]
  refine ⟨List.sorted_insertionSort _ _, hrank, ?_⟩
  intro r1 h1 r2 h2 hQ
  rw [hrank r1 h1, hrank r2 h2, hQ]

theorem unsortedRows_labels (matrix : List (List ℚ)) (weights : List ℚ)
    (types : List String) (v : ℚ) :
    (unsortedRows matrix weights types v).map (fun r => r.alternative) =
      (List.range matrix.length).map (fun i => "A" ++ toString (i + 1)) := by
  unfold unsortedRows
  rw [List.map_map]
  rfl

/-- C10: the `vikor` function itself generates the alternative labels
positionally as `"A1" .. "Am"`; on every valid input it returns (without
error) a table of exactly `m` rows whose label multiset is exactly
`{"A1", ..., "Am"}`, with each row carrying the `Alternative, S, R, Q, Rank`
fields, together with ideal and anti-ideal vectors of length `n`. -/
theorem C10_output_shape (matrix : List (List ℚ)) (weights : List ℚ)
    (types : List String) (v : ℚ) (hm : 1 ≤ matrix.length)
    (hn : 1 ≤ ncols matrix) (hw : ncols matrix ≤ weights.length)
    (ht : ncols matrix ≤ types.length) :
    vikor matrix weights types v = some (vikorRun matrix weights types v) ∧
    (vikorRun matrix weights types v).rows.length = matrix.length ∧
    ((vikorRun matrix weights types v).rows.map (fun r => r.alternative)).Perm
      ((List.range matrix.length).map (fun i => "A" ++ toString (i + 1))) ∧
    (vikorRun matrix weights types v).f_star.length = ncols matrix ∧
    (vikorRun matrix weights types v).f_minus.length = ncols matrix := by
  refine ⟨?_, ?_, ?_, ?_, ?_⟩
  · unfold vikor
    rw [if_pos ⟨hm, hn, hw, ht⟩]
  · show (List.insertionSort _ (unsortedRows matrix weights types v)).length = _
    rw [List.length_insertionSort]
    unfold unsortedRows
    simp
  · rw [← unsortedRows_labels matrix weights types v]
    exact (List.perm_insertionSort _ _).map _
  · show ((List.range (ncols matrix)).map (fun j => fStar matrix types j)).length = _
    simp
  · show ((List.range (ncols matrix)).map (fun j => fMinus matrix types j)).length = _
    simp

/-- C10 witness: the shape statement applied to the concrete Scenario A
input. -/
theorem C10_witness :
    vikor [[1, 2], [3, 4]] [1/2, 1/2] ["benefit", "benefit"] (1/2) =
      some (vikorRun [[1, 2], [3, 4]] [1/2, 1/2] ["benefit", "benefit"] (1/2)) ∧
    (vikorRun [[1, 2], [3, 4]] [1/2, 1/2] ["benefit", "benefit"] (1/2)).rows.length =
      ([[1, 2], [3, 4]] : List (List ℚ)).length ∧
    ((vikorRun [[1, 2], [3, 4]] [1/2, 1/2] ["benefit", "benefit"] (1/2)).rows.map
      (fun r => r.alternative)).Perm
      ((List.range ([[1, 2], [3, 4]] : List (List ℚ)).length).map
        (fun i => "A" ++ toString (i + 1))) ∧
    (vikorRun [[1, 2], [3, 4]] [1/2, 1/2] ["benefit", "benefit"] (1/2)).f_star.length =
      ncols [[(1:ℚ), 2], [3, 4]] ∧
    (vikorRun [[1, 2], [3, 4]] [1/2, 1/2] ["benefit", "benefit"] (1/2)).f_minus.length =
      ncols [[(1:ℚ), 2], [3, 4]] :=
  C10_output_shape [[1, 2], [3, 4]] [1/2, 1/2] ["benefit", "benefit"] (1/2)
    (by norm_num) (by norm_num [ncols]) (by norm_num [ncols]) (by norm_num [ncols])

theorem getD_zero {l : List ℚ} (h : ∀ x ∈ l, x = 0) (i : ℕ) : l.getD i 0 = 0 := by
  by_cases hi : i < l.length
  · rw [List.getD_eq_getElem _ _ hi]
    exact h _ (List.getElem_mem hi)
  · exact List.getD_eq_default _ _ (le_of_not_lt hi)

/-- C8: the boundary layer passes weights through unnormalized when their
sum is zero (the guard of source lines 504-505), and running the ranking
core with all-zero weights yields `S = R = Q = 0` for every alternative and
gives every alternative rank 1. -/
theorem C8_zero_weights (matrix : List (List ℚ)) (weights : List ℚ)
    (types : List String) (v : ℚ) (hm : 1 ≤ matrix.length)
    (hn : 1 ≤ ncols matrix) (hz : ∀ x ∈ weights, x = 0) :
    weights.sum = 0 ∧
    normalizeWeights weights = weights ∧
    ∀ row ∈ (vikorRun matrix weights types v).rows,
      row.S = 0 ∧ row.R = 0 ∧ row.Q = 0 ∧ row.rank = 1 := by
  have hsum : weights.sum = 0 := List.sum_eq_zero hz
  have hdiff : ∀ i, ∀ x ∈ diffList matrix weights types i, x = 0 := by
    intro i x hx
    rcases mem_diffList.mp hx with ⟨j, hj, hx2⟩
    rw [hx2, getD_zero hz j, zero_mul]
  have hS : ∀ x ∈ Svals matrix weights types, x = 0 := by
    intro x hx
    rcases List.mem_map.mp hx with ⟨i, hi, hx2⟩
    rw [← hx2]
    exact List.sum_eq_zero (hdiff i)
  have hR : ∀ x ∈ Rvals matrix weights types, x = 0 := by
    intro x hx
    rcases List.mem_map.mp hx with ⟨i, hi, hx2⟩
    rw [← hx2]
    exact npMax_const (diffList_ne_nil weights types i hn) (hdiff i)
  have hsT : ∀ L : List ℚ, L ≠ [] → (∀ x ∈ L, x = 0) → ∀ i, sTerm L i = 0 := by
    intro L hne h0 i
    unfold sTerm
    rw [npMax_const hne h0, npMin_const hne h0,
      if_pos (show |(0:ℚ) - 0| < eps by norm_num [eps])]
  have hQ : ∀ x ∈ Qvals matrix weights types v, x = 0 := by
    intro x hx
    rcases List.mem_map.mp hx with ⟨i, hi, hx2⟩
    rw [← hx2, hsT _ (Svals_ne_nil weights types hm) hS i,
      hsT _ (Rvals_ne_nil weights types hm) hR i]
    ring
  refine ⟨hsum, ?_, ?_⟩
  · unfold normalizeWeights
    rw [if_neg]
    rw [hsum]
    exact lt_irrefl 0
  · intro row hrow
    rcases mem_unsortedRows.mp
      ((List.perm_insertionSort _ _).mem_iff.mp hrow) with ⟨i, hi, heq⟩
    have hcount : (Qvals matrix weights types v).countP
        (fun x => decide (x < (Qvals matrix weights types v).getD i 0)) = 0 := by
      rw [getD_zero hQ i, List.countP_eq_zero]
      intro a ha
      rw [hQ a ha]
      simp
    rw [heq]
    refine ⟨getD_zero hS i, getD_zero hR i, getD_zero hQ i, ?_⟩
    show 1 + (Qvals matrix weights types v).countP
      (fun x => decide (x < (Qvals matrix weights types v).getD i 0)) = 1
    rw [hcount]

/-- C8 witness: all-zero weights on the concrete `[[1,2],[3,4]]` matrix. -/
theorem C8_witness :
    ([0, 0] : List ℚ).sum = 0 ∧
    normalizeWeights [0, 0] = [0, 0] ∧
    ∀ row ∈ (vikorRun [[1, 2], [3, 4]] [0, 0] ["benefit", "benefit"] (1/2)).rows,
      row.S = 0 ∧ row.R = 0 ∧ row.Q = 0 ∧ row.rank = 1 :=
  C8_zero_weights [[1, 2], [3, 4]] [0, 0] ["benefit", "benefit"] (1/2)
    (by norm_num) (by norm_num [ncols]) (by norm_num)

/-! Lemmas for appending a constant criterion column (claim C7): the new
column's range is zero, so its contribution to `S` and `R` vanishes. -/

theorem ncols_addCol {matrix : List (List ℚ)} (c : ℚ) (hm : 1 ≤ matrix.length) :
    ncols (matrix.map (fun row => row ++ [c])) = ncols matrix + 1 := by
  cases matrix with
  | nil => simp at hm
  | cons r rest => simp [ncols]

theorem colVals_addCol_lt {matrix : List (List ℚ)} {c : ℚ} (hRect : Rect matrix)
    {j : ℕ} (hj : j < ncols matrix) :
    colVals (matrix.map (fun row => row ++ [c])) j = colVals matrix j := by
  unfold colVals
  rw [List.map_map]
  apply List.map_congr_left
  intro row hrow
  exact List.getD_append _ _ _ _ (by rw [hRect row hrow]; exact hj)

theorem colVals_addCol_last {matrix : List (List ℚ)} {c : ℚ}
    (hRect : Rect matrix) :
    colVals (matrix.map (fun row => row ++ [c])) (ncols matrix) =
      matrix.map (fun _ => c) := by
  unfold colVals
  rw [List.map_map]
  apply List.map_congr_left
  intro row hrow
  show (row ++ [c]).getD (ncols matrix) 0 = c
  rw [← hRect row hrow, List.getD_append_right _ _ _ _ (le_refl _)]
  simp

theorem fStar_addCol {matrix : List (List ℚ)} {types : List String} {c : ℚ}
    {t : String} (hRect : Rect matrix) (htlen : types.length = ncols matrix)
    {j : ℕ} (hj : j < ncols matrix) :
    fStar (matrix.map (fun row => row ++ [c])) (types ++ [t]) j =
      fStar matrix types j := by
  unfold fStar
  rw [List.getD_append _ _ _ _ (by rw [htlen]; exact hj),
    colVals_addCol_lt hRect hj]

theorem fMinus_addCol {matrix : List (List ℚ)} {types : List String} {c : ℚ}
    {t : String} (hRect : Rect matrix) (htlen : types.length = ncols matrix)
    {j : ℕ} (hj : j < ncols matrix) :
    fMinus (matrix.map (fun row => row ++ [c])) (types ++ [t]) j =
      fMinus matrix types j := by
  unfold fMinus
  rw [List.getD_append _ _ _ _ (by rw [htlen]; exact hj),
    colVals_addCol_lt hRect hj]

theorem fStar_addCol_last {matrix : List (List ℚ)} {types : List String}
    {c : ℚ} {t : String} (hRect : Rect matrix) (hm : 1 ≤ matrix.length) :
    fStar (matrix.map (fun row => row ++ [c])) (types ++ [t]) (ncols matrix) = c := by
  unfold fStar
  rw [colVals_addCol_last hRect]
  have hne : matrix.map (fun _ : List ℚ => c) ≠ [] := by
    simp only [ne_eq, List.map_eq_nil_iff]
    exact List.ne_nil_of_length_pos hm
  have hconst : ∀ x ∈ matrix.map (fun _ : List ℚ => c), x = c := by
    intro x hx
    rcases List.mem_map.mp hx with ⟨_, _, hx2⟩
    exact hx2.symm
  by_cases hb : (types ++ [t]).getD (ncols matrix) "" = "benefit"
  · rw [if_pos hb]
    exact npMax_const hne hconst
  · rw [if_neg hb]
    exact npMin_const hne hconst

theorem fMinus_addCol_last {matrix : List (List ℚ)} {types : List String}
    {c : ℚ} {t : String} (hRect : Rect matrix) (hm : 1 ≤ matrix.length) :
    fMinus (matrix.map (fun row => row ++ [c])) (types ++ [t]) (ncols matrix) = c := by
  unfold fMinus
  rw [colVals_addCol_last hRect]
  have hne : matrix.map (fun _ : List ℚ => c) ≠ [] := by
    simp only [ne_eq, List.map_eq_nil_iff]
    exact List.ne_nil_of_length_pos hm
  have hconst : ∀ x ∈ matrix.map (fun _ : List ℚ => c), x = c := by
    intro x hx
    rcases List.mem_map.mp hx with ⟨_, _, hx2⟩
    exact hx2.symm
  by_cases hb : (types ++ [t]).getD (ncols matrix) "" = "benefit"
  · rw [if_pos hb]
    exact npMin_const hne hconst
  · rw [if_neg hb]
    exact npMax_const hne hconst

theorem normalized_addCol {matrix : List (List ℚ)} {types : List String}
    {c : ℚ} {t : String} (hRect : Rect matrix)
    (htlen : types.length = ncols matrix) {i j : ℕ} (hi : i < matrix.length)
    (hj : j < ncols matrix) :
    normalized (matrix.map (fun row => row ++ [c])) (types ++ [t]) i j =
      normalized matrix types i j := by
  have hmemrow : matrix.getD i [] ∈ matrix := by
    rw [List.getD_eq_getElem _ _ hi]
    exact List.getElem_mem hi
  have hrow : (matrix.map (fun row => row ++ [c])).getD i [] =
      matrix.getD i [] ++ [c] := by
    have hi2 : i < (matrix.map (fun row => row ++ [c])).length := by
      simpa using hi
    rw [List.getD_eq_getElem _ _ hi2, List.getElem_map,
      List.getD_eq_getElem _ _ hi]
  have hcell : (((matrix.map (fun row => row ++ [c])).getD i []).getD j 0) =
      (matrix.getD i []).getD j 0 := by
    rw [hrow]
    exact List.getD_append _ _ _ _ (by rw [hRect _ hmemrow]; exact hj)
  have htg : (types ++ [t]).getD j "" = types.getD j "" :=
    List.getD_append _ _ _ _ (by rw [htlen]; exact hj)
  simp only [normalized, fStar_addCol hRect htlen hj,
    fMinus_addCol hRect htlen hj, hcell, htg]

theorem normalized_addCol_last {matrix : List (List ℚ)} {types : List String}
    {c : ℚ} {t : String} (hRect : Rect matrix) (hm : 1 ≤ matrix.length)
    (i : ℕ) :
    normalized (matrix.map (fun row => row ++ [c])) (types ++ [t]) i
      (ncols matrix) = 0 := by
  simp only [normalized, fStar_addCol_last hRect hm, fMinus_addCol_last hRect hm]
  rw [sub_self, abs_zero, if_pos (show (0:ℚ) < eps by norm_num [eps])]

theorem diffList_addCol {matrix : List (List ℚ)} {weights : List ℚ}
    {types : List String} {c w : ℚ} {t : String} (hRect : Rect matrix)
    (hm : 1 ≤ matrix.length) (hwlen : weights.length = ncols matrix)
    (htlen : types.length = ncols matrix) {i : ℕ} (hi : i < matrix.length) :
    diffList (matrix.map (fun row => row ++ [c])) (weights ++ [w])
      (types ++ [t]) i = diffList matrix weights types i ++ [0] := by
  unfold diffList
  rw [ncols_addCol c hm, List.range_succ, List.map_append]
  congr 1
  · apply List.map_congr_left
    intro j hj
    have hj2 : j < ncols matrix := List.mem_range.mp hj
    rw [List.getD_append _ _ _ _ (by rw [hwlen]; exact hj2),
      normalized_addCol hRect htlen hi hj2]
  · simp only [List.map_cons, List.map_nil]
    rw [normalized_addCol_last hRect hm i, mul_zero]

theorem normalized_nonneg {matrix : List (List ℚ)} {types : List String}
    {i : ℕ} (j : ℕ) (hi : i < matrix.length) :
    0 ≤ normalized matrix types i j := by
  have hmem : (matrix.getD i []).getD j 0 ∈ colVals matrix j := by
    unfold colVals
    rw [List.getD_eq_getElem _ _ hi]
    exact List.mem_map.mpr ⟨matrix[i], List.getElem_mem hi, rfl⟩
  simp only [normalized]
  split
  · exact le_refl 0
  split
  next hb =>
    apply div_nonneg _ (abs_nonneg _)
    have hle : (matrix.getD i []).getD j 0 ≤ fStar matrix types j := by
      rw [fStar, if_pos hb]
      exact le_npMax hmem
    linarith
  next hb =>
    apply div_nonneg _ (abs_nonneg _)
    have hle : fStar matrix types j ≤ (matrix.getD i []).getD j 0 := by
      rw [fStar, if_neg hb]
      exact npMin_le hmem
    linarith

theorem diffList_nonneg {matrix : List (List ℚ)} {weights : List ℚ}
    {types : List String} (hwnn : ∀ x ∈ weights, 0 ≤ x) {i : ℕ}
    (hi : i < matrix.length) :
    ∀ x ∈ diffList matrix weights types i, 0 ≤ x := by
  intro x hx
  rcases mem_diffList.mp hx with ⟨j, hj, hx2⟩
  rw [hx2]
  apply mul_nonneg _ (normalized_nonneg j hi)
  by_cases hjw : j < weights.length
  · rw [List.getD_eq_getElem _ _ hjw]
    exact hwnn _ (List.getElem_mem hjw)
  · rw [List.getD_eq_default _ _ (le_of_not_lt hjw)]

theorem npMax_append_zero {l : List ℚ} (hl : l ≠ []) (h0 : 0 ≤ npMax l) :
    npMax (l ++ [0]) = npMax l := by
  cases l with
  | nil => exact absurd rfl hl
  | cons x xs =>
    show List.foldl max x (xs ++ [0]) = List.foldl max x xs
    rw [List.foldl_append]
    simp only [List.foldl_cons, List.foldl_nil]
    exact max_eq_left h0

theorem Svals_addCol {matrix : List (List ℚ)} {weights : List ℚ}
    {types : List String} {c w : ℚ} {t : String} (hRect : Rect matrix)
    (hm : 1 ≤ matrix.length) (hwlen : weights.length = ncols matrix)
    (htlen : types.length = ncols matrix) :
    Svals (matrix.map (fun row => row ++ [c])) (weights ++ [w]) (types ++ [t]) =
      Svals matrix weights types := by
  unfold Svals
  rw [List.length_map]
  apply List.map_congr_left
  intro i hi
  rw [diffList_addCol hRect hm hwlen htlen (List.mem_range.mp hi),
    List.sum_append]
  simp

theorem Rvals_addCol {matrix : List (List ℚ)} {weights : List ℚ}
    {types : List String} {c w : ℚ} {t : String} (hRect : Rect matrix)
    (hm : 1 ≤ matrix.length) (hn : 1 ≤ ncols matrix)
    (hwlen : weights.length = ncols matrix) (htlen : types.length = ncols matrix)
    (hwnn : ∀ x ∈ weights, 0 ≤ x) :
    Rvals (matrix.map (fun row => row ++ [c])) (weights ++ [w]) (types ++ [t]) =
      Rvals matrix weights types := by
  unfold Rvals
  rw [List.length_map]
  apply List.map_congr_left
  intro i hi
  have hi2 : i < matrix.length := List.mem_range.mp hi
  rw [diffList_addCol hRect hm hwlen htlen hi2]
  exact npMax_append_zero (diffList_ne_nil weights types i hn)
    (diffList_nonneg hwnn hi2 _ (npMax_mem (diffList_ne_nil weights types i hn)))

/-- C7: appending a constant-valued criterion column (value `c` in every
row) with any non-negative weight `w` and either polarity `t` leaves every
alternative's `S`, `R` and `Q` values and the whole ranked row table
unchanged. -/
theorem C7_constant_column (matrix : List (List ℚ)) (weights : List ℚ)
    (types : List String) (v c w : ℚ) (t : String) (hm : 1 ≤ matrix.length)
    (hn : 1 ≤ ncols matrix) (hRect : Rect matrix)
    (hwlen : weights.length = ncols matrix)
    (htlen : types.length = ncols matrix) (hwnn : ∀ x ∈ weights, 0 ≤ x)
    (hw : 0 ≤ w) :
    Svals (matrix.map (fun row => row ++ [c])) (weights ++ [w]) (types ++ [t]) =
      Svals matrix weights types ∧
    Rvals (matrix.map (fun row => row ++ [c])) (weights ++ [w]) (types ++ [t]) =
      Rvals matrix weights types ∧
    Qvals (matrix.map (fun row => row ++ [c])) (weights ++ [w]) (types ++ [t]) v =
      Qvals matrix weights types v ∧
    (vikorRun (matrix.map (fun row => row ++ [c])) (weights ++ [w])
      (types ++ [t]) v).rows = (vikorRun matrix weights types v).rows := by
  have hS := Svals_addCol (c := c) (w := w) (t := t) hRect hm hwlen htlen
  have hR := Rvals_addCol (c := c) (w := w) (t := t) hRect hm hn hwlen htlen hwnn
  have hQ : Qvals (matrix.map (fun row => row ++ [c])) (weights ++ [w])
      (types ++ [t]) v = Qvals matrix weights types v := by
    simp only [Qvals, List.length_map, hS, hR]
  have hU : unsortedRows (matrix.map (fun row => row ++ [c])) (weights ++ [w])
      (types ++ [t]) v = unsortedRows matrix weights types v := by
    simp only [unsortedRows, List.length_map, hS, hR, hQ]
  refine ⟨hS, hR, hQ, ?_⟩
  simp only [vikorRun, hU]

/-- C7 witness: appending the constant column `5` with weight `2` and Cost
polarity to Scenario A's input changes nothing. -/
theorem C7_witness :
    Svals ([[1, 2], [3, 4]].map (fun row => row ++ [5])) ([1, 1] ++ [2])
      (["benefit", "benefit"] ++ ["cost"]) =
      Svals [[1, 2], [3, 4]] [1, 1] ["benefit", "benefit"] ∧
    Rvals ([[1, 2], [3, 4]].map (fun row => row ++ [5])) ([1, 1] ++ [2])
      (["benefit", "benefit"] ++ ["cost"]) =
      Rvals [[1, 2], [3, 4]] [1, 1] ["benefit", "benefit"] ∧
    Qvals ([[1, 2], [3, 4]].map (fun row => row ++ [5])) ([1, 1] ++ [2])
      (["benefit", "benefit"] ++ ["cost"]) (1/2) =
      Qvals [[1, 2], [3, 4]] [1, 1] ["benefit", "benefit"] (1/2) ∧
    (vikorRun ([[1, 2], [3, 4]].map (fun row => row ++ [5])) ([1, 1] ++ [2])
      (["benefit", "benefit"] ++ ["cost"]) (1/2)).rows =
      (vikorRun [[1, 2], [3, 4]] [1, 1] ["benefit", "benefit"] (1/2)).rows :=
  C7_constant_column [[1, 2], [3, 4]] [1, 1] ["benefit", "benefit"] (1/2) 5 2
    "cost" (by norm_num) (by norm_num [ncols])
    (by intro row hrow; fin_cases hrow <;> norm_num [ncols])
    (by norm_num [ncols]) (by norm_num [ncols])
    (by intro x hx; fin_cases hx <;> norm_num)
    (by norm_num)

end Vikor
